import Mathlib

/-!
Verification of the effectful-computation runtime (`src/index.ts` of
susisu/effectful) against its design specification.

The embedding works as follows.

A computation (`Effectful<Row, T>`, a generator yielding effect objects) is
modelled by the inductive behaviour tree `Comp`: `ret a` is a generator whose
next advancement completes with value `a`, `thr e` is one whose next
advancement raises `e`, and `eff e k kt` is one whose next advancement yields
the effect `e` and then suspends; feeding the suspension a value `v`
(`comp.next(v)`) behaves as the tree `k v`, while injecting an error `er`
(`comp.throw(er)`) behaves as `kt er`.  Identifying a generator with its
behaviour tree quotients away object identity, so equality of trees is
observational identity (same performed effects, same result, same errors).

The driver `run` and its per-suspension guard are mirrored by `drive` and
`interpHandler`.  A handler (arbitrary user code receiving the one-shot
`resume`/`abort` callbacks) is modelled by the deep-embedded interaction
program `HProg`: it can return a result without touching the callbacks, throw
synchronously, or call `resume`/`abort` and continue on the returned value.
The one-shot flag `done` of the source is the `Bool` argument of
`interpHandler`.  `drive` is instrumented with a trace of `Event`s recording
each `comp.next` call, each `comp.throw` call, each handler invocation and
each invocation of the driver's `onThrow` channel, so that temporal claims
(ordering, resume-once, error routing) are statements about the trace.
`onThrow` has type `ε → Except ε U` since the source allows it to either
return a result or itself throw; a `.error` driver outcome models a JavaScript
exception escaping the `run` call stack (as opposed to being routed through
`onThrow`).

The forwarding transformer `interpret` (whose handlers receive callbacks that
return computations, and which forwards unhandled effects via
`bind(perform(effect), onResume, onAbort)`) is mirrored by `interpret` /
`interpH`, with interpret-style handler bodies deep-embedded as `HComp`:
such a body may finish, throw, perform its own effects, or splice in
`resume(v)` / `abort(er)` (the source's `yield* resume(v)`), observing the
spliced computation's return value or thrown error.

`runWith` is the reference observer used to state specifications: it answers
every performed effect with a pure response function and records the exact
sequence of performed effects.
-/

namespace Effectful

/-- Effect objects of the source: an immutable pair of a key and its data
(`Effect<Key, T>` with `key` and `data` fields). -/
structure Effect (κ δ : Type) where
  key : κ
  data : δ
deriving DecidableEq

/-- Behaviour trees of effectful computations (`Effectful<Row, T>`).
`ret a`: the generator completes with `a`.  `thr e`: advancing the generator
raises `e`.  `eff e k kt`: the generator yields effect `e`; `comp.next(v)`
then behaves as `k v` and `comp.throw(er)` as `kt er`. -/
inductive Comp (κ δ ρ ε α : Type) : Type where
  | ret : α → Comp κ δ ρ ε α
  | thr : ε → Comp κ δ ρ ε α
  | eff : Effect κ δ → (ρ → Comp κ δ ρ ε α) → (ε → Comp κ δ ρ ε α) → Comp κ δ ρ ε α

/-- Observable driver events used to instrument `drive`:
`next` records a `comp.next(...)` call, `gthrow` a `comp.throw(...)` call,
`handlerCall k` an invocation of the handler registered for key `k`, and
`onThrowCall e` an invocation of the driver's `onThrow` callback with `e`. -/
inductive Event (κ ε : Type) : Type where
  | next : Event κ ε
  | gthrow : Event κ ε
  | handlerCall : κ → Event κ ε
  | onThrowCall : ε → Event κ ε
deriving DecidableEq

/-- Interaction programs of `run`-style handlers
(`Handler<Key, T> = (effect, resume, abort) => T`): a handler may return a
result without calling the callbacks (`ret`), throw synchronously (`raise`),
or call `resume v` / `abort er` and continue with the value the callback
returns. -/
inductive HProg (ρ ε U : Type) : Type where
  | ret : U → HProg ρ ε U
  | raise : ε → HProg ρ ε U
  | callResume : ρ → (U → HProg ρ ε U) → HProg ρ ε U
  | callAbort : ε → (U → HProg ρ ε U) → HProg ρ ε U

/-- Interaction programs of `interpret`-style handler bodies
(`Handler<Key, Effectful<RowB, T>>`): the body may finish with a value
(`ret`), throw (`thr`), perform an effect of its own (`eff`), or splice in
`resume v` / `abort er` (the source's `yield* resume(v)`), continuing either
on the spliced computation's return value or on the error it throws. -/
inductive HComp (κ δ ρ ε T : Type) : Type where
  | ret : T → HComp κ δ ρ ε T
  | thr : ε → HComp κ δ ρ ε T
  | eff : Effect κ δ → (ρ → HComp κ δ ρ ε T) → (ε → HComp κ δ ρ ε T) → HComp κ δ ρ ε T
  | callResume : ρ → (T → HComp κ δ ρ ε T) → (ε → HComp κ δ ρ ε T) → HComp κ δ ρ ε T
  | callAbort : ε → (T → HComp κ δ ρ ε T) → (ε → HComp κ δ ρ ε T) → HComp κ δ ρ ε T

/-- Settled promises, for the async bridge: the data carried by the `async`
effect, restricted to already-settled futures. -/
inductive PromiseS (ε α : Type) : Type where
  | resolved : α → PromiseS ε α
  | rejected : ε → PromiseS ε α
deriving DecidableEq

variable {κ δ ρ ε α β U T : Type}

/-- Source `perform(effect)`: `function* { return yield effect; }` — yield
the effect once; a resumed value is returned, an injected error propagates. -/
def perform (e : Effect κ δ) : Comp κ δ ρ ε ρ :=
  Comp.eff e Comp.ret Comp.thr

/-- Source `pure(value)`: a computation that immediately returns `value`
without yielding. -/
def pure (v : α) : Comp κ δ ρ ε α :=
  Comp.ret v

/-- Source `abort(error)`: a computation that immediately throws `error`
without yielding. -/
def abort (e : ε) : Comp κ δ ρ ε α :=
  Comp.thr e

/-- Source `bind(comp, onReturn, onThrow?)`: delegate to `comp`
(`yield* comp`), forwarding resumed values and injected errors; if `comp`
returns, continue with `onReturn(value)`; if `comp` throws and `onThrow` is
given, continue with `onThrow(error)` (the `try`/`catch` around
`yield* comp`), otherwise re-throw. -/
def bind : Comp κ δ ρ ε α → (α → Comp κ δ ρ ε β) → Option (ε → Comp κ δ ρ ε β) →
    Comp κ δ ρ ε β
  | .ret a, f, _ => f a
  | .thr e, _, some h => h e
  | .thr e, _, none => .thr e
  | .eff e k kt, f, ot => .eff e (fun v => bind (k v) f ot) (fun er => bind (kt er) f ot)

/-- Source `run`, `onYield` part: invoke the handler's interaction program
for one suspension, threading the one-shot flag (the source's `done` local).
`pr` and `pa` are the protocol-violation error values
(`Error("cannot resume; already resumed or aborted")` and
`Error("cannot abort; already resumed or aborted")`), `onT` is `onThrow`,
`doR v` models `onResume(v)` (advance via `comp.next(v)`) and `doA er` models
`onAbort(er)` (advance via `comp.throw(er)`).  On a consumed flag the source
returns `onThrow(new Error(...))` to the handler, advancing nothing; on a
fresh flag it sets the flag and advances.  A `.error` result is a JavaScript
exception unwinding through the handler's frame. -/
def interpHandler (pr pa : ε) (onT : ε → Except ε U)
    (doR : ρ → List (Event κ ε) × Except ε U) (doA : ε → List (Event κ ε) × Except ε U) :
    Bool → HProg ρ ε U → List (Event κ ε) × Except ε U
  | _, .ret u => ([], .ok u)
  | _, .raise e => ([], .error e)
  | true, .callResume _ cont =>
    match onT pr with
    | .ok u =>
      let r := interpHandler pr pa onT doR doA true (cont u)
      (.onThrowCall pr :: r.1, r.2)
    | .error e => ([.onThrowCall pr], .error e)
  | false, .callResume v cont =>
    match doR v with
    | (tr, .ok u) =>
      let r := interpHandler pr pa onT doR doA true (cont u)
      (tr ++ r.1, r.2)
    | (tr, .error e) => (tr, .error e)
  | true, .callAbort _ cont =>
    match onT pa with
    | .ok u =>
      let r := interpHandler pr pa onT doR doA true (cont u)
      (.onThrowCall pa :: r.1, r.2)
    | .error e => ([.onThrowCall pa], .error e)
  | false, .callAbort er cont =>
    match doA er with
    | (tr, .ok u) =>
      let r := interpHandler pr pa onT doR doA true (cont u)
      (tr ++ r.1, r.2)
    | (tr, .error e) => (tr, .error e)

/-- Source `run`, advancement part (`onResume` / `onAbort` / `onYield`):
advance the computation and dispatch.  `adv` is the event recording how the
generator was advanced (`next` for `comp.next`, `gthrow` for `comp.throw`).
A completed generator goes to `onReturn`; a raising one goes to `onThrow`;
a yielded effect is looked up in the handler record — a missing entry is the
source's `handlers[effect.key]` being `undefined`, whose invocation throws a
`TypeError` (`ue effect.key`) that escapes the driver without touching
`onThrow`. -/
def drive (pr pa : ε) (ue : κ → ε) (hs : κ → Option (Effect κ δ → HProg ρ ε U))
    (onR : α → U) (onT : ε → Except ε U) :
    Event κ ε → Comp κ δ ρ ε α → List (Event κ ε) × Except ε U
  | adv, .ret a => ([adv], .ok (onR a))
  | adv, .thr e => ([adv, .onThrowCall e], onT e)
  | adv, .eff e k kt =>
    match hs e.key with
    | none => ([adv], .error (ue e.key))
    | some h =>
      let r := interpHandler pr pa onT
        (fun v => drive pr pa ue hs onR onT .next (k v))
        (fun er => drive pr pa ue hs onR onT .gthrow (kt er))
        false (h e)
      (adv :: .handlerCall e.key :: r.1, r.2)

/-- Source `run(comp, onReturn, onThrow, handlers)`: start the loop with
`onResume()`, i.e. an initial `comp.next(undefined)`. -/
def run (pr pa : ε) (ue : κ → ε) (hs : κ → Option (Effect κ δ → HProg ρ ε U))
    (onR : α → U) (onT : ε → Except ε U) (c : Comp κ δ ρ ε α) :
    List (Event κ ε) × Except ε U :=
  drive pr pa ue hs onR onT Event.next c

/-- Source `interpret`, handler part: interpret one handler body, threading
the one-shot flag.  `doR v` models `onResume(v)` and `doA er` models
`onAbort(er)` of `interpret` (each produces the rest of the output
computation).  A spliced `yield* resume(v)` is `bind` of the produced
computation with the body's two continuations; on a consumed flag the source
returns `abort(new Error(...))` instead, so the protocol error is thrown into
the handler body at the splice point. -/
def interpH (pr pa : ε) (doR : ρ → Comp κ δ ρ ε T) (doA : ε → Comp κ δ ρ ε T) :
    Bool → HComp κ δ ρ ε T → Comp κ δ ρ ε T
  | _, .ret t => .ret t
  | _, .thr e => .thr e
  | done, .eff e kv ke =>
    .eff e (fun v => interpH pr pa doR doA done (kv v))
      (fun er => interpH pr pa doR doA done (ke er))
  | true, .callResume _ cV cE =>
    bind (abort pr) (fun t => interpH pr pa doR doA true (cV t))
      (some fun er => interpH pr pa doR doA true (cE er))
  | false, .callResume v cV cE =>
    bind (doR v) (fun t => interpH pr pa doR doA true (cV t))
      (some fun er => interpH pr pa doR doA true (cE er))
  | true, .callAbort _ cV cE =>
    bind (abort pa) (fun t => interpH pr pa doR doA true (cV t))
      (some fun er => interpH pr pa doR doA true (cE er))
  | false, .callAbort er cV cE =>
    bind (doA er) (fun t => interpH pr pa doR doA true (cV t))
      (some fun er => interpH pr pa doR doA true (cE er))

/-- Source `interpret(comp, handlers)`: produce the output computation.
Completion yields `pure(res.value)`, a raise yields `abort(err)`; a yielded
effect with a matching handler runs the handler body with a fresh one-shot
flag; an unmatched effect is forwarded verbatim,
`bind(perform(effect), onResume, onAbort)`.  (The later revision's `handle`
is this same algorithm.) -/
def interpret (pr pa : ε) (hs : κ → Option (Effect κ δ → HComp κ δ ρ ε T)) :
    Comp κ δ ρ ε T → Comp κ δ ρ ε T
  | .ret a => pure a
  | .thr e => abort e
  | .eff e k kt =>
    match hs e.key with
    | some h =>
      interpH pr pa (fun v => interpret pr pa hs (k v))
        (fun er => interpret pr pa hs (kt er)) false (h e)
    | none =>
      bind (perform e) (fun v => interpret pr pa hs (k v))
        (some fun er => interpret pr pa hs (kt er))

/-- Reference observer for specifications: answer every performed effect with
`ans` and record the exact sequence of performed effects together with the
final outcome. -/
def runWith (ans : Effect κ δ → ρ) : Comp κ δ ρ ε α → List (Effect κ δ) × Except ε α
  | .ret a => ([], .ok a)
  | .thr e => ([], .error e)
  | .eff e k _ =>
    let r := runWith ans (k (ans e))
    (e :: r.1, r.2)

/-- Handler that calls `resume` twice on the same suspension
(`resume(a(eff)); return resume(b(eff));`), the canonical protocol
violation. -/
def doubleResume (a b : Effect κ δ → ρ) : Effect κ δ → HProg ρ ε U :=
  fun e => HProg.callResume (a e) (fun _ => HProg.callResume (b e) (fun u => HProg.ret u))

/-- Interpret-style handler body that resumes exactly once with a response
computed from the effect data and returns the resumed value
(`return yield* resume(g(eff.data))`). -/
def alwaysResume (g : δ → ρ) : Effect κ δ → HComp κ δ ρ ε T :=
  fun e => HComp.callResume (g e.data) (fun t => HComp.ret t) (fun er => HComp.thr er)

/-- Handler record for `interpret` covering exactly the keys on which `cov`
is defined, each entry resuming once via `alwaysResume`. -/
def covRec (cov : κ → Option (δ → ρ)) : κ → Option (Effect κ δ → HComp κ δ ρ ε T) :=
  fun k => (cov k).map (fun g => alwaysResume g)

/-- Combined answer function: effects whose key `cov` covers are answered by
the covering response, all others by the ambient answer `ans`. -/
def combineAns (cov : κ → Option (δ → ρ)) (ans : Effect κ δ → ρ) : Effect κ δ → ρ :=
  fun e =>
    match cov e.key with
    | some g => g e.data
    | none => ans e

/-- Fully covering `run` handler record in which every handler calls `resume`
exactly once with `g effect` and returns the resumed value
(`(eff, resume) => resume(g(eff))`). -/
def resumeOnceRec (g : Effect κ δ → ρ) : κ → Option (Effect κ δ → HProg ρ ε U) :=
  fun _ => some (fun e => HProg.callResume (g e) (fun u => HProg.ret u))

/-- Expected driver trace contributed by a list of performed effects when
every handler resumes exactly once: each performance shows its handler
invocation followed by the `comp.next` that advances past the suspension. -/
def perfEvents : List (Effect κ δ) → List (Event κ ε)
  | [] => []
  | e :: l => Event.handlerCall e.key :: Event.next :: perfEvents l

/-- Test for handler-invocation events. -/
def isHandlerCall : Event κ ε → Bool
  | .handlerCall _ => true
  | _ => false

/-- Source `waitFor(promise)`: perform the `async` effect carrying the
promise as data. -/
def waitFor (p : PromiseS ε ρ) : Comp String (PromiseS ε ρ) ρ ε ρ :=
  perform ⟨"async", p⟩

/-- Handler record of `runAsync`: the single `async` handler is
`effect.data.then(resume, abort)`; on an already-settled promise, `then`
invokes `resume` with the resolved value or `abort` with the rejection
reason, and returns the callback's result. -/
def asyncHandlers : String → Option (Effect String (PromiseS ε ρ) → HProg ρ ε (PromiseS ε α)) :=
  fun k =>
    if k = "async" then
      some (fun e =>
        match e.data with
        | .resolved v => HProg.callResume v (fun u => HProg.ret u)
        | .rejected er => HProg.callAbort er (fun u => HProg.ret u))
    else none

/-- Source `runAsync(comp)`: `run` with `onReturn = Promise.resolve`,
`onThrow = Promise.reject` and the `async` handler record; the outcome is the
settled promise `runAsync` returns. -/
def runAsync (pr pa : ε) (ue : String → ε) (c : Comp String (PromiseS ε ρ) ρ ε α) :
    List (Event String ε) × Except ε (PromiseS ε α) :=
  run pr pa ue asyncHandlers (fun a => PromiseS.resolved a)
    (fun er => Except.ok (PromiseS.rejected er)) c

/-- Concrete error universe for closed instances: the two protocol-violation
errors, the unhandled-key `TypeError`, and plain domain errors. -/
inductive TErr : Type where
  | protoResume : TErr
  | protoAbort : TErr
  | unhandled : String → TErr
  | user : Nat → TErr
deriving DecidableEq

end Effectful

namespace Effectful

variable {κ δ ρ ε α β U T : Type}

/-- Right identity of `bind` without a catch clause: delegating to `comp` and
then returning its value is the computation itself. -/
theorem bind_pure_none (c : Comp κ δ ρ ε α) :
    bind c (fun a => Effectful.pure a) none = c := by
  induction c with
  | ret a => rfl
  | thr e => rfl
  | eff e k kt ihk ihkt =>
    simp only [bind]
    congr 1 <;> funext x
    · exact ihk x
    · exact ihkt x

/-- Delegating to `comp`, returning its value and re-throwing its error is the
computation itself. -/
theorem bind_ret_thr (c : Comp κ δ ρ ε α) :
    bind c (fun a => Effectful.pure a) (some fun er => Effectful.abort er) = c := by
  induction c with
  | ret a => rfl
  | thr e => rfl
  | eff e k kt ihk ihkt =>
    simp only [bind]
    congr 1 <;> funext x
    · exact ihk x
    · exact ihkt x

/-- Once the one-shot flag is consumed, the guard of `run` never consults the
advancement callbacks: the interpretation of the rest of the handler body does
not depend on them. -/
theorem interpHandler_consumed_indep (pr pa : ε) (onT : ε → Except ε U)
    (doR doR' : ρ → List (Event κ ε) × Except ε U)
    (doA doA' : ε → List (Event κ ε) × Except ε U) (prog : HProg ρ ε U) :
    interpHandler pr pa onT doR doA true prog = interpHandler pr pa onT doR' doA' true prog := by
  induction prog with
  | ret u => rfl
  | raise e => rfl
  | callResume v cont ih =>
    simp only [interpHandler]
    cases onT pr with
    | ok u => simp only [ih u]
    | error e => rfl
  | callAbort er cont ih =>
    simp only [interpHandler]
    cases onT pa with
    | ok u => simp only [ih u]
    | error e => rfl

/-- Once the one-shot flag is consumed, the only events the rest of the
handler body can produce are protocol-violation reports on the `onThrow`
channel: no `comp.next`, no `comp.throw`, no handler invocation. -/
theorem interpHandler_consumed_reports (pr pa : ε) (onT : ε → Except ε U)
    (doR : ρ → List (Event κ ε) × Except ε U) (doA : ε → List (Event κ ε) × Except ε U)
    (prog : HProg ρ ε U) :
    List.Forall (fun ev => ev = Event.onThrowCall pr ∨ ev = Event.onThrowCall pa)
      (interpHandler pr pa onT doR doA true prog).1 := by
  induction prog with
  | ret u => simp [interpHandler, List.Forall]
  | raise e => simp [interpHandler, List.Forall]
  | callResume v cont ih =>
    simp only [interpHandler]
    cases onT pr with
    | ok u =>
      rw [List.forall_cons]
      exact ⟨Or.inl rfl, ih u⟩
    | error e => simp [List.Forall]
  | callAbort er cont ih =>
    simp only [interpHandler]
    cases onT pa with
    | ok u =>
      rw [List.forall_cons]
      exact ⟨Or.inr rfl, ih u⟩
    | error e => simp [List.Forall]

/-- Once the one-shot flag is consumed, the guard of `interpret` never
consults the advancement callbacks: the interpretation of the rest of the
handler body does not depend on them. -/
theorem interpH_consumed_indep (pr pa : ε)
    (doR doR' : ρ → Comp κ δ ρ ε T) (doA doA' : ε → Comp κ δ ρ ε T)
    (hc : HComp κ δ ρ ε T) :
    interpH pr pa doR doA true hc = interpH pr pa doR' doA' true hc := by
  induction hc with
  | ret t => rfl
  | thr e => rfl
  | eff e kv ke ihv ihe =>
    simp only [interpH]
    congr 1 <;> funext x
    · exact ihv x
    · exact ihe x
  | callResume v cV cE ihV ihE =>
    simp only [interpH, Effectful.abort, bind]
    exact ihE pr
  | callAbort er cV cE ihV ihE =>
    simp only [interpH, Effectful.abort, bind]
    exact ihE pa

end Effectful

namespace Effectful

variable {κ δ ρ ε α β U T : Type}

/-- Trace/outcome of `drive` under handlers that each resume exactly once:
the initial advancement, then for each performed effect its handler invocation
followed by the advancement past the suspension, then the terminal event. -/
theorem drive_resumeOnce (pr pa : ε) (ue : κ → ε) (g : Effect κ δ → ρ) (onR : α → U)
    (onT : ε → Except ε U) (c : Comp κ δ ρ ε α) :
    ∀ adv : Event κ ε,
      drive pr pa ue (resumeOnceRec g) onR onT adv c
        = match runWith g c with
          | (l, .ok a) => (adv :: perfEvents l, Except.ok (onR a))
          | (l, .error er) => (adv :: (perfEvents l ++ [Event.onThrowCall er]), onT er) := by
  induction c with
  | ret a => intro adv; rfl
  | thr e => intro adv; rfl
  | eff e k kt ihk ihkt =>
    intro adv
    simp only [drive, resumeOnceRec, interpHandler, runWith]
    rw [ihk (g e)]
    rcases hr : runWith g (k (g e)) with ⟨l, out⟩
    cases out with
    | ok a =>
      simp [perfEvents]
    | error er =>
      cases honT : onT er with
      | ok u => simp [perfEvents, honT]
      | error e2 => simp [perfEvents, honT]

/-- Filtering handler-invocation events out of the expected trace recovers the
performed effects, in order. -/
theorem filter_perfEvents (l : List (Effect κ δ)) :
    (perfEvents l : List (Event κ ε)).filter isHandlerCall
      = l.map (fun e => Event.handlerCall e.key) := by
  induction l with
  | nil => rfl
  | cons e l ih =>
    simp [perfEvents, List.filter, isHandlerCall, ih]

end Effectful


namespace Effectful

variable {κ δ ρ ε α β U T : Type}

theorem interpret_covRec_runWith (pr pa : ε) (cov : κ → Option (δ → ρ))
    (ans : Effect κ δ → ρ) (c : Comp κ δ ρ ε T) :
    runWith ans (interpret pr pa (covRec cov) c)
      = ((runWith (combineAns cov ans) c).1.filter (fun e => (cov e.key).isNone),
         (runWith (combineAns cov ans) c).2) := by
  induction c with
  | ret a => rfl
  | thr e => rfl
  | eff e k kt ihk ihkt =>
    cases hc : cov e.key with
    | none =>
      have hrec : covRec cov e.key = (none : Option (Effect κ δ → HComp κ δ ρ ε T)) := by
        simp [covRec, hc]
      simp only [interpret, hrec, perform, bind, runWith, combineAns, hc, List.filter,
        Option.isNone]
      rw [ihk (ans e)]
      simp [Option.isNone]
    | some g =>
      have hrec : covRec cov e.key
          = some (alwaysResume g : Effect κ δ → HComp κ δ ρ ε T) := by
        simp [covRec, hc]
      have hbody :
          interpret pr pa (covRec cov) (Comp.eff e k kt)
            = bind (interpret pr pa (covRec cov) (k (g e.data)))
                (fun a => Effectful.pure a) (some fun er => Effectful.abort er) := by
        simp only [interpret, hrec, alwaysResume, interpH]
        rfl
      rw [hbody, bind_ret_thr, ihk (g e.data)]
      simp [runWith, combineAns, hc, List.filter_cons]

end Effectful

namespace Effectful

variable {κ δ ρ ε α β U T : Type}

/-- C6: `bind(pure(x), f)` is observationally identical to `f(x)`, and
`bind(c, pure)` is observationally identical to `c`.  Equality of behaviour
trees is observational identity: same performed effects, same return value,
same errors, under every driver. -/
theorem c6_bind_identities {κ δ ρ ε α β : Type} (x : α) (f : α → Comp κ δ ρ ε β)
    (c : Comp κ δ ρ ε α) :
    bind (Effectful.pure x) f none = f x
    ∧ bind c (fun a => Effectful.pure a) none = c :=
  ⟨rfl, bind_pure_none c⟩

/-- C7: `run(pure(v), id, onThrow, handlers)` with the empty handler record
returns `v`; its trace is the single initial `comp.next`, so no handler and
no `onThrow` invocation ever happens; and `pure v` performs no effect. -/
theorem c7_run_pure_identity {κ δ ρ ε α : Type} (pr pa : ε) (ue : κ → ε)
    (onT : ε → Except ε α) (v : α) (ans : Effect κ δ → ρ) :
    run pr pa ue (fun _ => (none : Option (Effect κ δ → HProg ρ ε α))) (fun x => x) onT
        (Effectful.pure v)
      = ([Event.next], Except.ok v)
    ∧ runWith ans (Effectful.pure v : Comp κ δ ρ ε α) = ([], Except.ok v) :=
  ⟨rfl, rfl⟩

/-- C9: `bind`'s `onThrow` catches exactly the errors the first computation
raises: an error of the continuation produced by `onReturn`, or of the
computation produced by `onThrow` itself, propagates out of the composed
computation unhandled by this `bind`. -/
theorem c9_bind_onthrow_scope {κ δ ρ ε α β : Type} (x : α) (e e0 e1 : ε)
    (f : α → Comp κ δ ρ ε β) (h : ε → Comp κ δ ρ ε β) :
    bind (Effectful.pure x) f (some h) = f x
    ∧ bind (Effectful.abort e) f (some h) = h e
    ∧ bind (Effectful.pure x) (fun _ => (Effectful.abort e : Comp κ δ ρ ε β)) (some h)
        = Effectful.abort e
    ∧ bind (Effectful.abort e0) f (some fun _ => (Effectful.abort e1 : Comp κ δ ρ ε β))
        = Effectful.abort e1 :=
  ⟨rfl, rfl, rfl, rfl⟩

/-- C8: the async bridge on already-settled futures: `runAsync(waitFor(f))`
resolves with the value of a resolved `f`, rejects with the reason of a
rejected `f`, and resolves with the fallback when the computation catches the
rejection via `bind`'s `onThrow` and returns a fallback value. -/
theorem c8_async_bridge_settled {ε ρ : Type} (pr pa : ε) (ue : String → ε) (v : ρ)
    (er : ε) (fb : ρ) :
    (runAsync pr pa ue (waitFor (PromiseS.resolved v))).2 = Except.ok (PromiseS.resolved v)
    ∧ (runAsync pr pa ue (waitFor (PromiseS.rejected er : PromiseS ε ρ))).2
        = Except.ok (PromiseS.rejected er)
    ∧ (runAsync pr pa ue (bind (waitFor (PromiseS.rejected er : PromiseS ε ρ))
          (fun x => Effectful.pure x) (some fun _ => Effectful.pure fb))).2
        = Except.ok (PromiseS.resolved fb) :=
  ⟨rfl, rfl, rfl⟩

end Effectful

namespace Effectful

variable {κ δ ρ ε α β U T : Type}

/-- C2: resume-once.  Once a suspension's `resume`/`abort` has been accepted
(the one-shot flag is consumed), the rest of the handler interaction never
advances the underlying generator: in `run`, the guarded interpretation is
independent of the `comp.next`/`comp.throw` callbacks and its trace consists
solely of protocol-violation reports on `onThrow` — in particular no
`Event.next`, no `Event.gthrow`, no handler invocation, so no later effect
performance is duplicated — and each later `resume`/`abort` call reports the
corresponding violation; in `interpret`, the guarded handler-body
interpretation is likewise independent of the advancement callbacks. -/
theorem c2_resume_once_no_readvance {κ δ ρ ε U T : Type} (pr pa : ε)
    (onT : ε → Except ε U)
    (doR doR' : ρ → List (Event κ ε) × Except ε U)
    (doA doA' : ε → List (Event κ ε) × Except ε U) (prog : HProg ρ ε U)
    (doRB doRB' : ρ → Comp κ δ ρ ε T) (doAB doAB' : ε → Comp κ δ ρ ε T)
    (hprog : HComp κ δ ρ ε T) :
    interpHandler pr pa onT doR doA true prog = interpHandler pr pa onT doR' doA' true prog
    ∧ List.Forall (fun ev => ev = Event.onThrowCall pr ∨ ev = Event.onThrowCall pa)
        (interpHandler pr pa onT doR doA true prog).1
    ∧ (∀ (v : ρ) (cont : U → HProg ρ ε U),
        (interpHandler pr pa onT doR doA true (HProg.callResume v cont)).1.head?
          = some (Event.onThrowCall pr))
    ∧ (∀ (er : ε) (cont : U → HProg ρ ε U),
        (interpHandler pr pa onT doR doA true (HProg.callAbort er cont)).1.head?
          = some (Event.onThrowCall pa))
    ∧ interpH pr pa doRB doAB true hprog = interpH pr pa doRB' doAB' true hprog := by
  refine ⟨interpHandler_consumed_indep pr pa onT doR doR' doA doA' prog,
    interpHandler_consumed_reports pr pa onT doR doA prog, ?_, ?_,
    interpH_consumed_indep pr pa doRB doRB' doAB doAB' hprog⟩
  · intro v cont
    simp only [interpHandler]
    cases onT pr with
    | ok u => rfl
    | error e => rfl
  · intro er cont
    simp only [interpHandler]
    cases onT pa with
    | ok u => rfl
    | error e => rfl

/-- C3: forwarding.  For an inner computation over covered and uncovered
keys and an `interpret` layer whose handler record covers exactly the keys of
`cov`, each handler always resuming, the output computation performs exactly
the uncovered effects of the inner computation, each exactly once, in the
inner performance order, and has the same outcome, under every answer the
outer driver supplies. -/
theorem c3_forwarding_order_preserved {κ δ ρ ε T : Type} (pr pa : ε)
    (cov : κ → Option (δ → ρ)) (ans : Effect κ δ → ρ) (c : Comp κ δ ρ ε T) :
    runWith ans (interpret pr pa (covRec cov) c)
      = ((runWith (combineAns cov ans) c).1.filter (fun e => (cov e.key).isNone),
         (runWith (combineAns cov ans) c).2) :=
  interpret_covRec_runWith pr pa cov ans c

/-- C5: handler invocation order.  For a computation and the fully covering
record in which each handler resumes exactly once with `g effect`, the trace
of `run` is the initial advancement followed by, for each performed effect in
performance order, its handler invocation and the advancement past that
suspension; consequently the handler-invocation events are exactly the
performed effects, each exactly once, in order. -/
theorem c5_handler_invocation_order {κ δ ρ ε α U : Type} (pr pa : ε) (ue : κ → ε)
    (g : Effect κ δ → ρ) (onR : α → U) (onT : ε → Except ε U) (c : Comp κ δ ρ ε α) :
    (run pr pa ue (resumeOnceRec g) onR onT c
      = match runWith g c with
        | (l, Except.ok a) => (Event.next :: perfEvents l, Except.ok (onR a))
        | (l, Except.error er) =>
          (Event.next :: (perfEvents l ++ [Event.onThrowCall er]), onT er))
    ∧ (run pr pa ue (resumeOnceRec g) onR onT c).1.filter isHandlerCall
        = (runWith g c).1.map (fun e => Event.handlerCall e.key) := by
  constructor
  · exact drive_resumeOnce pr pa ue g onR onT c Event.next
  · rw [run, drive_resumeOnce pr pa ue g onR onT c Event.next]
    rcases runWith g c with ⟨l, out⟩
    cases out with
    | ok a =>
      simp [List.filter, isHandlerCall, filter_perfEvents]
    | error er =>
      simp [List.filter, List.filter_append, isHandlerCall, filter_perfEvents]

end Effectful

namespace Effectful

variable {κ δ ρ ε α β U T : Type}

/-- C1 counterexample: a concrete `run` in which the handler calls `resume`
twice.  The driver delivers the protocol-violation error to the ordinary
domain error channel — the trace records `onThrowCall protoResume` — and the
run completes normally with `onThrow`'s recovery value `999`: the violation
is caught and absorbed by ordinary domain error handling, contradicting the
claim that it surfaces distinctly from it. -/
theorem c1_violation_absorbed_cex :
    run TErr.protoResume TErr.protoAbort TErr.unhandled
      (fun k => if k = "e" then
        some (doubleResume (fun _ => (1 : Nat)) (fun _ => 2)) else none)
      (fun n : Nat => n) (fun _ => Except.ok 999)
      (Comp.eff ⟨"e", (0 : Nat)⟩ (fun v => Comp.ret v) (fun er => Comp.thr er))
    = ([Event.next, Event.handlerCall "e", Event.next, Event.onThrowCall TErr.protoResume],
       Except.ok 999) := rfl

/-- C1 amended: a second `resume` on the same suspension is reported through
the ordinary domain error channel.  In `run`, after the accepted first resume
finishes, the second call invokes `onThrow` with the protocol error `pr` and
the run's outcome is exactly `onThrow`'s result (so an `onThrow` that
recovers absorbs the violation); in `interpret`, the second spliced resume
behaves as `abort(protocolError)` thrown into the handler body at the splice
point, i.e. it continues on the body's error continuation applied to `pr`.
The violation is distinguished from domain errors only by its error value,
not by its channel. -/
theorem c1_violation_reported_via_onThrow {κ δ ρ ε α U T : Type} (pr pa : ε)
    (ue : κ → ε) (hs : κ → Option (Effect κ δ → HProg ρ ε U)) (onR : α → U)
    (onT : ε → Except ε U) (e : Effect κ δ) (k : ρ → Comp κ δ ρ ε α)
    (kt : ε → Comp κ δ ρ ε α) (a b : Effect κ δ → ρ)
    (hlook : hs e.key = some (doubleResume a b)) :
    (run pr pa ue hs onR onT (Comp.eff e k kt)
      = match drive pr pa ue hs onR onT Event.next (k (a e)) with
        | (tr, Except.ok _) =>
          (Event.next :: Event.handlerCall e.key :: (tr ++ [Event.onThrowCall pr]), onT pr)
        | (tr, Except.error e2) =>
          (Event.next :: Event.handlerCall e.key :: tr, Except.error e2))
    ∧ (∀ (doRB : ρ → Comp κ δ ρ ε T) (doAB : ε → Comp κ δ ρ ε T) (v : ρ)
        (cV : T → HComp κ δ ρ ε T) (cE : ε → HComp κ δ ρ ε T),
        interpH pr pa doRB doAB true (HComp.callResume v cV cE)
          = interpH pr pa doRB doAB true (cE pr)) := by
  constructor
  · simp only [run, drive, hlook, doubleResume, interpHandler]
    rcases hd : drive pr pa ue hs onR onT Event.next (k (a e)) with ⟨tr, out⟩
    cases out with
    | ok u =>
      cases honT : onT pr with
      | ok u2 => simp [interpHandler, honT]
      | error e2 => simp [interpHandler, honT]
    | error e2 => simp
  · intro doRB doAB v cV cE
    rfl

end Effectful

namespace Effectful

variable {κ δ ρ ε α β U T : Type}

/-- Witness for the amended C1 statement at a concrete double-resuming
handler record, with the lookup hypothesis discharged by `rfl`. -/
theorem c1_violation_reported_via_onThrow_witness :
    run TErr.protoResume TErr.protoAbort TErr.unhandled
      (fun k => if k = "w" then
        some (doubleResume (fun _ => (10 : Nat)) (fun _ => (20 : Nat))) else none)
      (fun n : Nat => n) (fun _ => Except.ok 5)
      (Comp.eff ⟨"w", (0 : Nat)⟩ (fun v => Comp.ret v) (fun er => Comp.thr er))
    = match drive TErr.protoResume TErr.protoAbort TErr.unhandled
        (fun k => if k = "w" then
          some (doubleResume (fun _ => (10 : Nat)) (fun _ => (20 : Nat))) else none)
        (fun n : Nat => n) (fun _ => Except.ok 5) Event.next
        (Comp.ret 10 : Comp String Nat Nat TErr Nat) with
      | (tr, Except.ok _) =>
        (Event.next :: Event.handlerCall "w" ::
          (tr ++ [Event.onThrowCall TErr.protoResume]), Except.ok 5)
      | (tr, Except.error e2) =>
        (Event.next :: Event.handlerCall "w" :: tr, Except.error e2) :=
  (@c1_violation_reported_via_onThrow String Nat Nat TErr Nat Nat Nat
    TErr.protoResume TErr.protoAbort TErr.unhandled
    (fun k => if k = "w" then
      some (doubleResume (fun _ => (10 : Nat)) (fun _ => (20 : Nat))) else none)
    (fun n => n) (fun _ => Except.ok 5) ⟨"w", 0⟩ (fun v => Comp.ret v)
    (fun er => Comp.thr er) (fun _ => 10) (fun _ => 20) rfl).1

/-- C4: an effect whose key has no entry in the handler record makes `run`
fail fast: the invocation of the `undefined` entry raises immediately at that
performance (first conjunct for the initial advancement, second for a
mid-computation advancement via `comp.throw`), escaping the driver without
routing through the domain error channel — `onThrow` is never invoked. -/
theorem c4_unhandled_key_fails_fast {κ δ ρ ε α U : Type} (pr pa : ε) (ue : κ → ε)
    (hs : κ → Option (Effect κ δ → HProg ρ ε U)) (onR : α → U) (onT : ε → Except ε U)
    (e : Effect κ δ) (k : ρ → Comp κ δ ρ ε α) (kt : ε → Comp κ δ ρ ε α)
    (hnone : hs e.key = none) :
    run pr pa ue hs onR onT (Comp.eff e k kt) = ([Event.next], Except.error (ue e.key))
    ∧ drive pr pa ue hs onR onT Event.gthrow (Comp.eff e k kt)
        = ([Event.gthrow], Except.error (ue e.key))
    ∧ (∀ er : ε, Event.onThrowCall er ∉ (run pr pa ue hs onR onT (Comp.eff e k kt)).1) := by
  refine ⟨?_, ?_, ?_⟩
  · simp [run, drive, hnone]
  · simp [drive, hnone]
  · intro er
    simp [run, drive, hnone]

/-- Witness for C4 at the empty handler record, with the lookup hypothesis
discharged by `rfl`. -/
theorem c4_unhandled_key_fails_fast_witness :
    run TErr.protoResume TErr.protoAbort TErr.unhandled
      (fun _ => (none : Option (Effect String Nat → HProg Nat TErr Nat)))
      (fun n : Nat => n) (fun _ => Except.ok 0)
      (Comp.eff ⟨"k", (0 : Nat)⟩ (fun v => Comp.ret v) (fun er => Comp.thr er))
    = ([Event.next], Except.error (TErr.unhandled "k")) :=
  (c4_unhandled_key_fails_fast TErr.protoResume TErr.protoAbort TErr.unhandled
    (fun _ => none) (fun n => n) (fun _ => Except.ok 0) ⟨"k", 0⟩
    (fun v => Comp.ret v) (fun er => Comp.thr er) rfl).1

/-- C10: only errors raised while advancing the computation are routed to
`onThrow` (first conjunct: an advancement that raises invokes `onThrow` with
the raised error and the run's outcome is `onThrow`'s result).  An exception
a handler throws synchronously without calling `resume`/`abort` escapes the
driver's call stack with no `onThrow` invocation (second and third
conjuncts), and such an escape propagates unchanged through an enclosing
handler frame whose `resume` it unwinds (fourth conjunct). -/
theorem c10_handler_throw_escapes {κ δ ρ ε α U : Type} (pr pa : ε) (ue : κ → ε)
    (hs : κ → Option (Effect κ δ → HProg ρ ε U)) (onR : α → U) (onT : ε → Except ε U)
    (e : Effect κ δ) (k : ρ → Comp κ δ ρ ε α) (kt : ε → Comp κ δ ρ ε α)
    (h : Effect κ δ → HProg ρ ε U) (err : ε)
    (doR : ρ → List (Event κ ε) × Except ε U) (doA : ε → List (Event κ ε) × Except ε U)
    (v : ρ) (cont : U → HProg ρ ε U) (tr : List (Event κ ε))
    (hlook : hs e.key = some h) (hraise : h e = HProg.raise err)
    (hdoR : doR v = (tr, Except.error err)) :
    (∀ (e2 : ε) (adv : Event κ ε),
      drive pr pa ue hs onR onT adv (Comp.thr e2) = ([adv, Event.onThrowCall e2], onT e2))
    ∧ run pr pa ue hs onR onT (Comp.eff e k kt)
        = ([Event.next, Event.handlerCall e.key], Except.error err)
    ∧ (∀ er2 : ε, Event.onThrowCall er2 ∉
        ([Event.next, Event.handlerCall e.key] : List (Event κ ε)))
    ∧ interpHandler pr pa onT doR doA false (HProg.callResume v cont)
        = (tr, Except.error err) := by
  refine ⟨?_, ?_, ?_, ?_⟩
  · intro e2 adv
    rfl
  · simp [run, drive, hlook, hraise, interpHandler]
  · intro er2
    simp
  · simp [interpHandler, hdoR]

/-- Witness for C10 at a concrete raising handler, with all hypotheses
discharged by `rfl`. -/
theorem c10_handler_throw_escapes_witness :
    run TErr.protoResume TErr.protoAbort TErr.unhandled
      (fun k => if k = "k" then
        some (fun _ => HProg.raise (TErr.user 7)) else none)
      (fun n : Nat => n) (fun _ => Except.ok 0)
      (Comp.eff ⟨"k", (0 : Nat)⟩ (fun v => Comp.ret v) (fun er => Comp.thr er))
    = ([Event.next, Event.handlerCall "k"], Except.error (TErr.user 7)) :=
  (c10_handler_throw_escapes TErr.protoResume TErr.protoAbort TErr.unhandled
    (fun k => if k = "k" then some (fun _ => HProg.raise (TErr.user 7)) else none)
    (fun n => n) (fun _ => Except.ok 0) ⟨"k", 0⟩ (fun v => Comp.ret v)
    (fun er => Comp.thr er) (fun _ => HProg.raise (TErr.user 7)) (TErr.user 7)
    (fun _ => ([], Except.error (TErr.user 7))) (fun _ => ([], Except.ok 0))
    0 (fun u => HProg.ret u) [] rfl rfl rfl).2.1

end Effectful
